import Mathlib

/-!
Verification of the metadata-repair core of the cis-bidsify repository
(`utils.py`: `intended_for_gen`, `complete_jsons`, `clean_jsons`).

The Python functions are shallowly embedded as executable Lean definitions:

* Python dicts become insertion-ordered association lists (`alookup` finds the
  first binding, assignment `dictSet` updates in place or appends, matching
  CPython dict semantics);
* a scan (`BIDSFile`) becomes a `Nifti` record carrying its entity dict, its
  `AcquisitionTime` (an abstract comparable timestamp, modelled as `Nat`), and
  its filename; sidecar JSON contents become `JVal` trees with rational
  numbers standing for Python floats (exact arithmetic in place of IEEE
  rounding);
* Python exceptions (KeyError, IndexError, TypeError, ZeroDivisionError, the
  explicit `Exception` raised for a missing `EffectiveEchoSpacing`) become an
  `Except Err` result, raised at the same program points, including the
  list-comprehension semantics that evaluates every element before `any`/`all`;
* `sorted` becomes an insertion sort under byte-wise (code-point) lexicographic
  string order, the order CPython uses on `str`.
-/

namespace CisBidsify

/-- Python exceptions that the embedded code can raise. -/
inductive Err where
  | keyError (k : String)
  | indexError
  | typeError
  | zeroDivisionError
  | missingFieldError
  | notFoundError
deriving DecidableEq, Repr

/-- First-binding lookup in an insertion-ordered association list
(Python `d[k]` / `d.get(k)` on a dict). -/
def alookup {β : Type} : List (String × β) → String → Option β
  | [], _ => none
  | (k, v) :: rest, key => if k = key then some v else alookup rest key

/-- Python dict assignment `d[k] = v`: replace in place if the key exists,
else append at the end (CPython preserves insertion order). -/
def dictSet {β : Type} : List (String × β) → String → β → List (String × β)
  | [], key, v => [(key, v)]
  | (k, w) :: rest, key, v =>
    if k = key then (key, v) :: rest else (k, w) :: dictSet rest key v

/-- One imaging entry as `intended_for_gen` sees it: the entity dict returned
by `get_entities()`, the `AcquisitionTime` read from `get_metadata()`
(modelled as an abstract comparable timestamp), and `filename`. -/
structure Nifti where
  entities : List (String × String)
  acqTime : Nat
  filename : String
deriving DecidableEq, Repr

/-- Python `d[k]` on an entity dict: KeyError when the key is absent. -/
def entGet (e : List (String × String)) (k : String) : Except Err String :=
  match alookup e k with
  | some v => .ok v
  | none => .error (.keyError k)

/-- Byte-wise lexicographic comparison of char lists (CPython `str` order). -/
def charsLe : List Char → List Char → Bool
  | [], _ => true
  | _ :: _, [] => false
  | c :: cs, d :: ds =>
    if c.toNat < d.toNat then true
    else if d.toNat < c.toNat then false
    else charsLe cs ds

/-- CPython string `<=` (lexicographic on code points). -/
def strLeB (a b : String) : Bool :=
  charsLe a.data b.data

/-- The propositional order underlying `strLeB`. -/
def strLe (a b : String) : Prop := strLeB a b = true

instance : DecidableRel strLe := fun a b => instDecidableEqBool (strLeB a b) true

theorem charsLe_total (xs ys : List Char) :
    charsLe xs ys = true ∨ charsLe ys xs = true := by
  induction xs generalizing ys with
  | nil => left; rfl
  | cons c cs ih =>
    cases ys with
    | nil => right; rfl
    | cons d ds =>
      rcases Nat.lt_trichotomy c.toNat d.toNat with h | h | h
      · left; simp [charsLe, h]
      · have hcd : ¬ c.toNat < d.toNat := by omega
        have hdc : ¬ d.toNat < c.toNat := by omega
        rcases ih ds with h2 | h2
        · left; simp [charsLe, hcd, hdc, h2]
        · right; simp [charsLe, hcd, hdc, h2]
      · right; simp [charsLe, h]

theorem charsLe_trans {xs ys zs : List Char} (h1 : charsLe xs ys = true)
    (h2 : charsLe ys zs = true) : charsLe xs zs = true := by
  induction xs generalizing ys zs with
  | nil => rfl
  | cons c cs ih =>
    cases ys with
    | nil => simp [charsLe] at h1
    | cons d ds =>
      cases zs with
      | nil => simp [charsLe] at h2
      | cons e es =>
        by_cases hcd : c.toNat < d.toNat
        · by_cases hde : d.toNat < e.toNat
          · have : c.toNat < e.toNat := Nat.lt_trans hcd hde
            simp [charsLe, this]
          · by_cases hed : e.toNat < d.toNat
            · simp [charsLe, hde, hed] at h2
            · have hde' : d.toNat = e.toNat := by omega
              have : c.toNat < e.toNat := by omega
              simp [charsLe, this]
        · by_cases hdc : d.toNat < c.toNat
          · simp [charsLe, hcd, hdc] at h1
          · have hcd' : c.toNat = d.toNat := by omega
            by_cases hde : d.toNat < e.toNat
            · have : c.toNat < e.toNat := by omega
              simp [charsLe, this]
            · by_cases hed : e.toNat < d.toNat
              · simp [charsLe, hde, hed] at h2
              · have hce : ¬ c.toNat < e.toNat := by omega
                have hec : ¬ e.toNat < c.toNat := by omega
                simp [charsLe, hcd, hdc] at h1
                simp [charsLe, hde, hed] at h2
                simp [charsLe, hce, hec]
                exact ih h1 h2

instance : IsTotal String strLe :=
  ⟨fun a b => charsLe_total a.data b.data⟩

instance : IsTrans String strLe :=
  ⟨fun _ _ _ h1 h2 => charsLe_trans h1 h2⟩

/-- Python `sorted` on a list of strings. -/
def sortStr (l : List String) : List String :=
  List.insertionSort strLe l

theorem sortStr_sorted (l : List String) : (sortStr l).Sorted strLe :=
  List.sorted_insertionSort strLe l

theorem sortStr_perm (l : List String) : (sortStr l).Perm l :=
  List.perm_insertionSort strLe l

theorem mem_sortStr {p : String} {l : List String} :
    p ∈ sortStr l ↔ p ∈ l :=
  (sortStr_perm l).mem_iff

/-- Lines 29–33 of `utils.py`: file one later-acquired nifti into the
time-keyed dict (append to the bucket of its exact acquisition time unless
already a member, else start a fresh bucket at the end of the dict). -/
def insertNifti : List (Nat × List Nifti) → Nifti → List (Nat × List Nifti)
  | [], n => [(n.acqTime, [n])]
  | (t, b) :: rest, n =>
    if t = n.acqTime then
      (if n ∈ b then (t, b) :: rest else (t, b ++ [n]) :: rest)
    else (t, b) :: insertNifti rest n

/-- Lines 25–33 of `utils.py`: the candidate loop, skipping every nifti whose
acquisition time is `≤` the field map's own. -/
def buildDictAux (T : Nat) : List (Nat × List Nifti) → List Nifti → List (Nat × List Nifti)
  | d, [] => d
  | d, n :: ns => buildDictAux T (if n.acqTime ≤ T then d else insertNifti d n) ns

/-- The `out_dict` of `intended_for_gen`, keyed by exact acquisition time. -/
def buildDict (niftis : List Nifti) (T : Nat) : List (Nat × List Nifti) :=
  buildDictAux T [] niftis

/-- Python `sorted([x for x in out_dict])` followed by the per-key bucket
lookups: the buckets in ascending order of their (distinct) time keys. -/
def sortedBuckets (d : List (Nat × List Nifti)) : List (List Nifti) :=
  (List.insertionSort (fun a b : Nat × List Nifti => a.1 ≤ b.1) d).map Prod.snd

instance : IsTotal (Nat × List Nifti) (fun a b => a.1 ≤ b.1) :=
  ⟨fun a b => Nat.le_total a.1 b.1⟩

instance : IsTrans (Nat × List Nifti) (fun a b => a.1 ≤ b.1) :=
  ⟨fun _ _ _ => Nat.le_trans⟩

/-- Line 37 of `utils.py`, inner comprehension:
`[fmap_entities[x] == i[x] for x in fmap_entities if x != 'run']` followed by
`all`.  Every element is evaluated (a KeyError in a later element is raised
even if an earlier element is already False), matching list-comprehension
semantics. -/
def pyAllEq (fE iE : List (String × String)) : List String → Except Err Bool
  | [] => .ok true
  | x :: xs => do
    let a ← entGet fE x
    let b ← entGet iE x
    let r ← pyAllEq fE iE xs
    pure (decide (a = b) && r)

/-- Lines 37–38 of `utils.py`: `any([all([...]) for i in target_entities])`,
again with every member evaluated. -/
def anyMatches (fE : List (String × String)) : List Nifti → Except Err Bool
  | [] => .ok false
  | i :: is => do
    let m ← pyAllEq fE i.entities ((fE.map Prod.fst).filter (fun x => x ≠ "run"))
    let r ← anyMatches fE is
    pure (m || r)

/-- Lines 45–51 of `utils.py`: the relative paths contributed by one emitted
bucket, built from the FIRST member's datatype and session and each member's
filename, sorted within the bucket. -/
def bucketPaths (n0 : Nifti) (dt0 : String) (b : List Nifti) : List String :=
  match alookup n0.entities "session" with
  | some s => sortStr (b.map (fun x => "ses-" ++ s ++ "/" ++ dt0 ++ "/" ++ x.filename))
  | none => sortStr (b.map (fun x => dt0 ++ "/" ++ x.filename))

/-- Lines 34–51 of `utils.py`: the walk over ascending-time buckets.
`break` returns the accumulator; `continue` recurses on the remaining
buckets. -/
def walkBuckets (fE : List (String × String)) :
    List (List Nifti) → List String → Except Err (List String)
  | [], acc => .ok acc
  | [] :: _, _ => .error .indexError
  | (n0 :: ns) :: rest, acc => do
    let dt0 ← entGet n0.entities "datatype"
    if dt0 = "fmap" then do
      let m ← anyMatches fE (n0 :: ns)
      if m then .ok acc
      else walkBuckets fE rest acc
    else
      match alookup fE "acquisition" with
      | some a =>
        if a = dt0 then walkBuckets fE rest (acc ++ bucketPaths n0 dt0 (n0 :: ns))
        else walkBuckets fE rest acc
      | none => walkBuckets fE rest (acc ++ bucketPaths n0 dt0 (n0 :: ns))

/-- Lines 20–52 of `utils.py`: `intended_for_gen(niftis, fmap_nifti)`. -/
def intended_for_gen (niftis : List Nifti) (f : Nifti) : Except Err (List String) := do
  let res ← walkBuckets f.entities (sortedBuckets (buildDict niftis f.acqTime)) []
  pure (sortStr res)

@[simp] theorem except_bind_ok {α β : Type} (a : α) (f : α → Except Err β) :
    (Except.ok a : Except Err α) >>= f = f a := rfl

@[simp] theorem except_bind_error {α β : Type} (e : Err) (f : α → Except Err β) :
    (Except.error e : Except Err α) >>= f = Except.error e := rfl

@[simp] theorem except_pure_def {α : Type} (a : α) :
    (pure a : Except Err α) = Except.ok a := rfl

-- Sanity checks on the three-entry scenario of the spec (t1 fmap, t2 func,
-- t3 fmap identical to t1 except run).

/-- The field map acquired at t1 in the spec's three-entry scenario. -/
def exFmap1 : Nifti :=
  { entities := [("subject", "01"), ("datatype", "fmap"), ("acquisition", "func"),
                 ("direction", "AP"), ("run", "1")]
    acqTime := 1
    filename := "sub-01_acq-func_dir-AP_run-1_epi.nii.gz" }

/-- The functional scan acquired at t2 in the spec's three-entry scenario. -/
def exFunc2 : Nifti :=
  { entities := [("subject", "01"), ("datatype", "func"), ("task", "rest")]
    acqTime := 2
    filename := "sub-01_task-rest_bold.nii.gz" }

/-- The field map acquired at t3, identical to `exFmap1` except `run`. -/
def exFmap3 : Nifti :=
  { entities := [("subject", "01"), ("datatype", "fmap"), ("acquisition", "func"),
                 ("direction", "AP"), ("run", "2")]
    acqTime := 3
    filename := "sub-01_acq-func_dir-AP_run-2_epi.nii.gz" }

example :
    intended_for_gen [exFmap1, exFunc2, exFmap3] exFmap1 =
      .ok ["func/sub-01_task-rest_bold.nii.gz"] := rfl

example :
    intended_for_gen [exFmap1] exFmap1 = .ok [] := rfl

/-- A JSON sidecar value.  Python floats are modelled as exact rationals. -/
inductive JVal where
  | null
  | str (s : String)
  | num (q : ℚ)
  | arr (l : List JVal)
  | obj (m : List (String × JVal))

/-- One imaging entry as `complete_jsons` / `clean_jsons` see it: the
`BIDSFile` data (entities, acquisition time, filename) plus the parsed sidecar
JSON and the on-disk voxel-grid shape (`nib.load(path).shape`). -/
structure Entry where
  nifti : Nifti
  metadata : List (String × JVal)
  shape : List ℕ

/-- Line 86 of `utils.py`: `{'i': 0, 'j': 1, 'k': 2}[c]` (KeyError on any
other first character of `PhaseEncodingDirection`). -/
def peIdx (c : Char) : Except Err ℕ :=
  if c = 'i' then .ok 0
  else if c = 'j' then .ok 1
  else if c = 'k' then .ok 2
  else .error (.keyError (String.mk [c]))

/-- Lines 88–94 of `utils.py`: with the echo-train length `n // prf` in hand
(`n` the voxel extent along the phase axis, `prf` the parallel-reduction
factor), re-read `EffectiveEchoSpacing` and set `TotalReadoutTime`.
Python's `//` on a zero float raises ZeroDivisionError; `data.get` returns
`None` both when the key is absent and when it holds JSON `null`, and the
code raises its missing-field Exception on `None`; a non-numeric value
raises TypeError in the arithmetic. -/
def readoutCore (data : List (String × JVal)) (n : ℕ) (prf : ℚ) :
    Except Err (List (String × JVal) × Bool) :=
  if prf = 0 then .error .zeroDivisionError
  else
    match alookup data "EffectiveEchoSpacing" with
    | none => .error .missingFieldError
    | some .null => .error .missingFieldError
    | some (.num ees) =>
      .ok (dictSet data "TotalReadoutTime"
            (.num (ees * ((⌊(n : ℚ) / prf⌋ : ℚ) - 1))), true)
    | some _ => .error .typeError

/-- Lines 83–94 of `utils.py`: the readout-time backfill on one sidecar.
Returns the updated metadata and whether the entry was marked dirty
(`dump = 1`).  The guard, the evaluation order (phase axis and echo-train
length before the defensive `EffectiveEchoSpacing` re-read), the float floor
division, and the raises (KeyError on a missing `PhaseEncodingDirection`,
IndexError on an empty string or a short shape) all follow the source. -/
def readoutStep (shape : List ℕ) (data : List (String × JVal)) (ow : Bool) :
    Except Err (List (String × JVal) × Bool) :=
  if (alookup data "EffectiveEchoSpacing").isSome &&
      (ow || (alookup data "TotalReadoutTime").isNone) then do
    let ped ← match alookup data "PhaseEncodingDirection" with
      | none => .error (.keyError "PhaseEncodingDirection")
      | some (.str s) => .ok s
      | some _ => .error .typeError
    let c ← match ped.data with
      | [] => .error .indexError
      | ch :: _ => .ok ch
    let i ← peIdx c
    let n ← match shape[i]? with
      | some n => .ok n
      | none => .error .indexError
    let prf ← match alookup data "ParallelReductionFactorInPlane" with
      | none => .ok (1 : ℚ)
      | some (.num q) => .ok q
      | some _ => .error .typeError
    readoutCore data n prf
  else .ok (data, false)

/-- Lines 95–97 of `utils.py`: the TaskName backfill on one sidecar. -/
def taskStep (ents : List (String × String)) (data : List (String × JVal))
    (dump : Bool) (ow : Bool) : List (String × JVal) × Bool :=
  match alookup ents "task" with
  | some t =>
    if ow || (alookup data "TaskName").isNone then
      (dictSet data "TaskName" (.str t), true)
    else (data, dump)
  | none => (data, dump)

/-- Lines 78–104 of `utils.py`: the per-entry body of the `complete_jsons`
loop — readout-time backfill, TaskName backfill, IntendedFor assignment —
returning the entry's updated metadata and the `dump` flag that decides
whether its sidecar is rewritten. -/
def completeStep (niftis : List Nifti) (e : Entry) (ow : Bool) :
    Except Err (List (String × JVal) × Bool) := do
  let r ← readoutStep e.shape e.metadata ow
  let s := taskStep e.nifti.entities r.1 r.2 ow
  let dt ← entGet e.nifti.entities "datatype"
  if dt = "fmap" && (ow || (alookup s.1 "IntendedFor").isNone) then do
    let ps ← intended_for_gen niftis e.nifti
    .ok (dictSet s.1 "IntendedFor" (.arr (ps.map JVal.str)), true)
  else .ok s

/-- The `for nifti in niftis` loop of `complete_jsons` over one subject's
index: each entry's sidecar is completed against the full candidate list;
the Bool records whether that entry's sidecar file was rewritten. -/
def completePassAux (ns : List Nifti) (ow : Bool) :
    List Entry → Except Err (List (Entry × Bool))
  | [] => .ok []
  | e :: es => do
    let r ← completeStep ns e ow
    let rest ← completePassAux ns ow es
    .ok (({ e with metadata := r.1 }, r.2) :: rest)

/-- One subject/session run of the completion engine over its indexed
entries. -/
def completePass (es : List Entry) (ow : Bool) : Except Err (List (Entry × Bool)) :=
  completePassAux (es.map (fun e => e.nifti)) ow es

/-- Lines 118–146 of `utils.py`: the allow-list of sidecar keys kept by
`clean_jsons`. -/
def KEEP_KEYS : List String :=
  ["AnatomicalLandmarkCoordinates", "AcquisitionTime",
   "AcquisitionDuration", "CogAtlasID",
   "CogPOID", "CoilCombinationMethod", "ConversionSoftware",
   "ConversionSoftwareVersion", "DelayAfterTrigger", "DelayTime",
   "DeviceSerialNumber", "DwellTime", "EchoNumbers", "EchoTime",
   "EchoTrainLength", "EffectiveEchoSpacing", "FlipAngle",
   "GradientSetType", "HighBit",
   "ImagedNucleus", "ImageType", "ImagingFrequency",
   "InPlanePhaseEncodingDirection", "InstitutionName",
   "InstitutionAddress", "InstitutionalDepartmentName",
   "Instructions", "IntendedFor", "InversionTime",
   "MRAcquisitionType", "MagneticFieldStrength", "Manufacturer",
   "ManufacturersModelName", "MatrixCoilMode", "Modality",
   "MRTransmitCoilSequence", "MultibandAccelerationFactor",
   "NumberOfAverages", "NumberOfPhaseEncodingSteps",
   "NumberOfVolumesDiscardedByScanner", "NumberOfVolumesDiscardedByUser",
   "NumberShots", "ParallelAcquisitionTechnique",
   "ParallelReductionFactorInPlane", "PartialFourier",
   "PartialFourierDirection", "PhaseEncodingDirection",
   "PixelBandwidth", "ProtocolName", "PulseSequenceDetails",
   "PulseSequenceType", "ReceiveCoilActiveElements", "ReceiveCoilName",
   "RepetitionTime", "Rows",
   "SAR", "ScanningSequence", "ScanOptions", "SequenceName",
   "SequenceVariant", "SeriesDescription", "SeriesNumber",
   "SliceEncodingDirection", "SliceLocation",
   "SliceThickness", "SliceTiming", "SoftwareVersions",
   "SpacingBetweenSlices", "StationName", "TaskDescription",
   "TaskName", "TotalReadoutTime", "Units", "VolumeTiming"]

/-- Python `k in v` on an arbitrary JSON value: key membership on a dict,
substring test on a string, element equality on a list, TypeError on
`None`/numbers. -/
def jMem (v : JVal) (k : String) : Except Err Bool :=
  match v with
  | .obj m => .ok (alookup m k).isSome
  | .str s => .ok (decide ((s.splitOn k).length > 1))
  | .arr l => .ok (l.any (fun e => match e with | .str t => decide (t = k) | _ => false))
  | _ => .error .typeError

/-- Python `v[k]` with a string key: dict lookup (KeyError when absent),
TypeError on anything that is not a dict. -/
def jIndex (v : JVal) (k : String) : Except Err JVal :=
  match v with
  | .obj m =>
    match alookup m k with
    | some x => .ok x
    | none => .error (.keyError k)
  | _ => .error .typeError

/-- Lines 158–160 of `utils.py`: `for key in KEEP_KEYS: if key not in
metadata and key in global_keys: metadata2[key] = global_keys[key]`.
`gv` is the `global_keys` value (a dict in the intended case, but any JSON
value the sidecar happened to store). -/
def liftFold (m : List (String × JVal)) (gv : JVal) :
    List (String × JVal) → List String → Except Err (List (String × JVal))
  | acc, [] => .ok acc
  | acc, k :: ks => do
    let inG ← jMem gv k
    if (alookup m k).isNone && inG then do
      let v ← jIndex gv k
      liftFold m gv (dictSet acc k v) ks
    else liftFold m gv acc ks

/-- Lines 148–163 of `utils.py`: the pruning of one sidecar — filter down to
the allow-list, then lift dataset-global constants (`global.const`) for
allow-listed keys absent locally. -/
def pruneMeta (m : List (String × JVal)) : Except Err (List (String × JVal)) := do
  let m2 := KEEP_KEYS.filterMap (fun k => (alookup m k).map (fun v => (k, v)))
  let gv ← match alookup m "global" with
    | none => .ok (JVal.obj [])
    | some g => do
      let hc ← jMem g "const"
      if hc then jIndex g "const" else .ok (JVal.obj [])
  liftFold m gv m2 KEEP_KEYS

/-- The `for scan in scans` loop of `clean_jsons` over one subject/session:
every selected sidecar is pruned and rewritten. -/
def prunePassAux : List Entry → Except Err (List Entry)
  | [] => .ok []
  | e :: es => do
    let m ← pruneMeta e.metadata
    let rest ← prunePassAux es
    .ok ({ e with metadata := m } :: rest)

/-- Whether an entry matches a subject and optional session filter
(`layout.get(subject=..., session=...)`). -/
def matchesSubSes (e : Entry) (sub : String) (ses : Option String) : Bool :=
  (alookup e.nifti.entities "subject" = some sub) &&
  (match ses with
   | some s => alookup e.nifti.entities "session" = some s
   | none => true)

/-- Lines 68–77 of `utils.py`: the index restriction used by
`complete_jsons` — the subject's (and optional session's) entries of
datatype func, fmap or dwi. -/
def selectEntries (ds : List Entry) (sub : String) (ses : Option String) : List Entry :=
  ds.filter (fun e =>
    matchesSubSes e sub ses &&
    (alookup e.nifti.entities "datatype" = some "func" ||
     alookup e.nifti.entities "datatype" = some "fmap" ||
     alookup e.nifti.entities "datatype" = some "dwi"))

/-- Line 116 of `utils.py`: the index restriction used by `clean_jsons`
(any datatype under the subject/session). -/
def selectAll (ds : List Entry) (sub : String) (ses : Option String) : List Entry :=
  ds.filter (fun e => matchesSubSes e sub ses)

/-- Modelled from the spec: the Dataset Index operation is not under `src/`
(the index is the external `BIDSLayout`); per the spec it "fails with
`NotFoundError` when the requested subject/session yields zero entries
(callers treat this as a no-op, not fatal)". -/
def indexGet (ds : List Entry) (sub : String) (ses : Option String)
    (sel : List Entry → String → Option String → List Entry) : Except Err (List Entry) :=
  match sel ds sub ses with
  | [] => .error .notFoundError
  | l => .ok l

/-- One subject/session invocation of the completion engine: the caller
iterates over whatever the index yields, so an index `NotFoundError` (zero
entries) degenerates to a loop over nothing — no writes, no failure. -/
def completeForSubject (ds : List Entry) (sub : String) (ses : Option String)
    (ow : Bool) : Except Err (List (Entry × Bool)) :=
  match indexGet ds sub ses selectEntries with
  | .error .notFoundError => .ok []
  | .error e => .error e
  | .ok l => completePass l ow

/-- One subject/session invocation of the pruning pass, treating an index
`NotFoundError` the same way. -/
def pruneForSubject (ds : List Entry) (sub : String) (ses : Option String) :
    Except Err (List Entry) :=
  match indexGet ds sub ses selectAll with
  | .error .notFoundError => .ok []
  | .error e => .error e
  | .ok l => prunePassAux l

-- ### Association-list lemmas

theorem alookup_dictSet_self {β : Type} (d : List (String × β)) (k : String) (v : β) :
    alookup (dictSet d k v) k = some v := by
  induction d with
  | nil => simp [dictSet, alookup]
  | cons p rest ih =>
    by_cases h : p.1 = k
    · simp [dictSet, h, alookup]
    · simp [dictSet, h, alookup, ih]

theorem alookup_dictSet_ne {β : Type} (d : List (String × β)) (k k' : String) (v : β)
    (h : k' ≠ k) : alookup (dictSet d k v) k' = alookup d k' := by
  have hk : ¬ k = k' := fun hh => h hh.symm
  induction d with
  | nil => simp [dictSet, alookup, hk]
  | cons p rest ih =>
    by_cases hp : p.1 = k
    · subst hp
      simp [dictSet, alookup, hk]
    · cases p with
    | mk pk pv =>
      by_cases hp' : pk = k'
      · subst hp'
        simp [dictSet, alookup, hp]
      · simp [dictSet, alookup, hp, hp', ih]

theorem mem_of_alookup_eq_some {β : Type} {l : List (String × β)} {k : String} {v : β}
    (h : alookup l k = some v) : (k, v) ∈ l := by
  induction l with
  | nil => simp [alookup] at h
  | cons p rest ih =>
    cases p with
    | mk pk pv =>
      by_cases hp : pk = k
      · subst hp
        simp [alookup] at h
        simp [h]
      · simp [alookup, hp] at h
        exact List.mem_cons_of_mem _ (ih h)

theorem alookup_isSome_of_mem_keys {l : List (String × String)} {k : String}
    (h : k ∈ l.map Prod.fst) : (alookup l k).isSome := by
  induction l with
  | nil => simp at h
  | cons p rest ih =>
    by_cases hp : p.1 = k
    · simp [alookup, hp]
    · simp [alookup, hp]
      rcases List.mem_map.mp h with ⟨q, hq, hqk⟩
      rcases List.mem_cons.mp hq with hq | hq
      · exact absurd (hq ▸ hqk) hp
      · exact ih (List.mem_map.mpr ⟨q, hq, hqk⟩)

theorem entGet_ok_of_alookup {e : List (String × String)} {k v : String}
    (h : alookup e k = some v) : entGet e k = .ok v := by
  simp [entGet, h]

-- ### The field-map matching check (lines 37–38 of `utils.py`)

/-- A candidate's entity dict agrees with the field map's on every entity key
except `run` (the closing-field-map condition of the walk). -/
def agreesExceptRun (fE iE : List (String × String)) : Prop :=
  ∀ x ∈ fE.map Prod.fst, x ≠ "run" → alookup iE x = alookup fE x

instance (fE iE : List (String × String)) : Decidable (agreesExceptRun fE iE) := by
  unfold agreesExceptRun
  infer_instance

theorem pyAllEq_ok (fE iE : List (String × String)) (xs : List String)
    (hfE : ∀ x ∈ xs, (alookup fE x).isSome)
    (hiE : ∀ x ∈ xs, (alookup iE x).isSome) :
    pyAllEq fE iE xs = .ok (decide (∀ x ∈ xs, alookup iE x = alookup fE x)) := by
  induction xs with
  | nil => simp [pyAllEq]
  | cons x xs ih =>
    rcases Option.isSome_iff_exists.mp (hfE x (by simp)) with ⟨a, ha⟩
    rcases Option.isSome_iff_exists.mp (hiE x (by simp)) with ⟨b, hb⟩
    have hrec := ih (fun y hy => hfE y (by simp [hy])) (fun y hy => hiE y (by simp [hy]))
    simp only [pyAllEq, entGet, ha, hb, hrec, except_bind_ok, except_pure_def]
    congr 1
    have hxiff : (alookup iE x = alookup fE x) ↔ (a = b) := by
      rw [ha, hb]
      constructor
      · intro hh
        exact (Option.some.injEq b a ▸ hh : b = a).symm
      · intro hh
        rw [hh]
    by_cases h1 : a = b
    · by_cases h2 : (∀ y ∈ xs, alookup iE y = alookup fE y)
      · simp [List.forall_mem_cons, h1, h2, hxiff.mpr h1]
      · simp [List.forall_mem_cons, h1, h2]
    · have h1' := (not_iff_not.mpr hxiff).mpr h1
      simp [List.forall_mem_cons, h1, h1']

theorem anyMatches_ok (fE : List (String × String)) (b : List Nifti)
    (hb : ∀ i ∈ b, ∀ x ∈ fE.map Prod.fst, x ≠ "run" → (alookup i.entities x).isSome) :
    anyMatches fE b = .ok (decide (∃ i ∈ b, agreesExceptRun fE i.entities)) := by
  induction b with
  | nil => simp [anyMatches]
  | cons i is ih =>
    have hfE : ∀ x ∈ (fE.map Prod.fst).filter (fun x => x ≠ "run"),
        (alookup fE x).isSome := by
      intro x hx
      exact alookup_isSome_of_mem_keys (List.mem_of_mem_filter hx)
    have hiE : ∀ x ∈ (fE.map Prod.fst).filter (fun x => x ≠ "run"),
        (alookup i.entities x).isSome := by
      intro x hx
      rcases List.mem_filter.mp hx with ⟨hx1, hx2⟩
      exact hb i (by simp) x hx1 (by simpa using hx2)
    have hall := pyAllEq_ok fE i.entities _ hfE hiE
    have hrec := ih (fun j hj => hb j (by simp [hj]))
    simp only [anyMatches, hall, hrec, except_bind_ok, except_pure_def]
    congr 1
    have hiff : (∀ x ∈ (fE.map Prod.fst).filter (fun x => x ≠ "run"),
        alookup i.entities x = alookup fE x) ↔ agreesExceptRun fE i.entities := by
      constructor
      · intro h x hx hxr
        exact h x (List.mem_filter.mpr ⟨hx, by simpa using hxr⟩)
      · intro h x hx
        rcases List.mem_filter.mp hx with ⟨hx1, hx2⟩
        exact h x hx1 (by simpa using hx2)
    apply Bool.eq_iff_iff.mpr
    simp only [Bool.or_eq_true, decide_eq_true_eq]
    constructor
    · rintro (h | h)
      · exact ⟨i, by simp, hiff.mp h⟩
      · rcases h with ⟨j, hj, hjj⟩
        exact ⟨j, by simp [hj], hjj⟩
    · rintro ⟨j, hj, hjj⟩
      rcases List.mem_cons.mp hj with hj | hj
      · exact Or.inl (hiff.mpr (hj ▸ hjj))
      · exact Or.inr ⟨j, hj, hjj⟩

-- ### Walk-step lemmas

theorem walkBuckets_stop {fE : List (String × String)} {n0 : Nifti} {ns1 : List Nifti}
    {rest : List (List Nifti)} {acc : List String}
    (hdt : alookup n0.entities "datatype" = some "fmap")
    (hm : anyMatches fE (n0 :: ns1) = .ok true) :
    walkBuckets fE ((n0 :: ns1) :: rest) acc = .ok acc := by
  simp [walkBuckets, entGet, hdt, hm]

theorem walkBuckets_skip_fmap {fE : List (String × String)} {n0 : Nifti} {ns1 : List Nifti}
    {rest : List (List Nifti)} {acc : List String}
    (hdt : alookup n0.entities "datatype" = some "fmap")
    (hm : anyMatches fE (n0 :: ns1) = .ok false) :
    walkBuckets fE ((n0 :: ns1) :: rest) acc = walkBuckets fE rest acc := by
  simp [walkBuckets, entGet, hdt, hm]

theorem walkBuckets_skip_acq {fE : List (String × String)} {n0 : Nifti} {ns1 : List Nifti}
    {rest : List (List Nifti)} {acc : List String} {dt0 a : String}
    (hdt : alookup n0.entities "datatype" = some dt0) (hne : dt0 ≠ "fmap")
    (hacq : alookup fE "acquisition" = some a) (hmm : a ≠ dt0) :
    walkBuckets fE ((n0 :: ns1) :: rest) acc = walkBuckets fE rest acc := by
  simp [walkBuckets, entGet, hdt, hne, hacq, hmm]

theorem walkBuckets_emit {fE : List (String × String)} {n0 : Nifti} {ns1 : List Nifti}
    {rest : List (List Nifti)} {acc : List String} {dt0 : String}
    (hdt : alookup n0.entities "datatype" = some dt0) (hne : dt0 ≠ "fmap")
    (hacq : alookup fE "acquisition" = none ∨ alookup fE "acquisition" = some dt0) :
    walkBuckets fE ((n0 :: ns1) :: rest) acc =
      walkBuckets fE rest (acc ++ bucketPaths n0 dt0 (n0 :: ns1)) := by
  rcases hacq with h | h
  · simp [walkBuckets, entGet, hdt, hne, h]
  · simp [walkBuckets, entGet, hdt, hne, h]

-- ### Bucket-dictionary lemmas (lines 24–33 of `utils.py`)

theorem insertNifti_inv {S : List Nifti} {T : Nat} {n : Nifti}
    (hn : T < n.acqTime) (hnS : n ∈ S) :
    ∀ d : List (Nat × List Nifti),
      (∀ p ∈ d, T < p.1 ∧ ∀ c ∈ p.2, c.acqTime = p.1 ∧ c ∈ S) →
      ∀ p ∈ insertNifti d n, T < p.1 ∧ ∀ c ∈ p.2, c.acqTime = p.1 ∧ c ∈ S := by
  intro d
  induction d with
  | nil =>
    intro _ p hp
    simp only [insertNifti, List.mem_singleton] at hp
    subst hp
    refine ⟨hn, ?_⟩
    intro c hc
    simp only [List.mem_singleton] at hc
    subst hc
    exact ⟨rfl, hnS⟩
  | cons q rest ih =>
    obtain ⟨t, b⟩ := q
    intro hd p hp
    have hhead := hd (t, b) (by simp)
    have hrest : ∀ p ∈ rest, T < p.1 ∧ ∀ c ∈ p.2, c.acqTime = p.1 ∧ c ∈ S :=
      fun p hp => hd p (by simp [hp])
    by_cases hq : t = n.acqTime
    · subst hq
      by_cases hmem : n ∈ b
      · rw [insertNifti, if_pos rfl, if_pos hmem] at hp
        exact hd p hp
      · rw [insertNifti, if_pos rfl, if_neg hmem] at hp
        rcases List.mem_cons.mp hp with h | h
        · subst h
          refine ⟨hhead.1, ?_⟩
          intro c hc
          rcases List.mem_append.mp hc with h | h
          · exact hhead.2 c h
          · simp only [List.mem_singleton] at h
            subst h
            exact ⟨rfl, hnS⟩
        · exact hrest p h
    · rw [insertNifti, if_neg hq] at hp
      rcases List.mem_cons.mp hp with h | h
      · subst h
        exact hhead
      · exact ih hrest p h

theorem buildDictAux_inv {S : List Nifti} {T : Nat} :
    ∀ ns : List Nifti, (∀ n ∈ ns, n ∈ S) →
    ∀ d : List (Nat × List Nifti),
      (∀ p ∈ d, T < p.1 ∧ ∀ c ∈ p.2, c.acqTime = p.1 ∧ c ∈ S) →
      ∀ p ∈ buildDictAux T d ns, T < p.1 ∧ ∀ c ∈ p.2, c.acqTime = p.1 ∧ c ∈ S := by
  intro ns
  induction ns with
  | nil => intro _ d hd; simpa [buildDictAux] using hd
  | cons n ns ih =>
    intro hS d hd
    rw [buildDictAux]
    by_cases hle : n.acqTime ≤ T
    · simpa [hle] using ih (fun m hm => hS m (by simp [hm])) d hd
    · have hlt : T < n.acqTime := Nat.lt_of_not_le hle
      simpa [hle] using
        ih (fun m hm => hS m (by simp [hm])) (insertNifti d n)
          (insertNifti_inv hlt (hS n (by simp)) d hd)

/-- Source-level invariant of the `out_dict`: every bucket holds candidates
strictly later than the field map's acquisition time, each filed under its own
exact acquisition time, drawn from the input list. -/
theorem buildDict_inv {ns : List Nifti} {T : Nat} :
    ∀ p ∈ buildDict ns T, T < p.1 ∧ ∀ c ∈ p.2, c.acqTime = p.1 ∧ c ∈ ns :=
  buildDictAux_inv ns (fun _ h => h) [] (by simp)

theorem insertNifti_preserves {t0 : Nat} {b0 : List Nifti} {c n : Nifti} :
    ∀ d : List (Nat × List Nifti), (t0, b0) ∈ d → c ∈ b0 →
      ∃ b2, (t0, b2) ∈ insertNifti d n ∧ c ∈ b2 := by
  intro d
  induction d with
  | nil => intro h; simp at h
  | cons q rest ih =>
    obtain ⟨t, b⟩ := q
    intro hmem hc
    by_cases hq : t = n.acqTime
    · subst hq
      by_cases hb : n ∈ b
      · rw [insertNifti, if_pos rfl, if_pos hb]
        exact ⟨b0, hmem, hc⟩
      · rw [insertNifti, if_pos rfl, if_neg hb]
        rcases List.mem_cons.mp hmem with h | h
        · have h1 : t0 = n.acqTime := congrArg Prod.fst h
          have h2 : b0 = b := congrArg Prod.snd h
          subst h1
          subst h2
          exact ⟨b0 ++ [n], by simp, List.mem_append.mpr (Or.inl hc)⟩
        · exact ⟨b0, by simp [h], hc⟩
    · rw [insertNifti, if_neg hq]
      rcases List.mem_cons.mp hmem with h | h
      · exact ⟨b0, by simp [h], hc⟩
      · rcases ih h hc with ⟨b2, hb2, hcb2⟩
        exact ⟨b2, by simp [hb2], hcb2⟩

theorem insertNifti_self {n : Nifti} :
    ∀ d : List (Nat × List Nifti),
      ∃ b2, (n.acqTime, b2) ∈ insertNifti d n ∧ n ∈ b2 := by
  intro d
  induction d with
  | nil => exact ⟨[n], by simp [insertNifti], by simp⟩
  | cons q rest ih =>
    obtain ⟨t, b⟩ := q
    by_cases hq : t = n.acqTime
    · subst hq
      by_cases hb : n ∈ b
      · rw [insertNifti, if_pos rfl, if_pos hb]
        exact ⟨b, by simp, hb⟩
      · rw [insertNifti, if_pos rfl, if_neg hb]
        exact ⟨b ++ [n], by simp, by simp⟩
    · rw [insertNifti, if_neg hq]
      rcases ih with ⟨b2, hb2, hnb2⟩
      exact ⟨b2, by simp [hb2], hnb2⟩

theorem buildDictAux_preserves {T t0 : Nat} {c : Nifti} :
    ∀ ns : List Nifti, ∀ d : List (Nat × List Nifti), ∀ b0 : List Nifti,
      (t0, b0) ∈ d → c ∈ b0 →
      ∃ b2, (t0, b2) ∈ buildDictAux T d ns ∧ c ∈ b2 := by
  intro ns
  induction ns with
  | nil => intro d b0 hd hc; exact ⟨b0, by simpa [buildDictAux] using hd, hc⟩
  | cons n ns ih =>
    intro d b0 hd hc
    rw [buildDictAux]
    by_cases hle : n.acqTime ≤ T
    · simpa [hle] using ih d b0 hd hc
    · rcases insertNifti_preserves d hd hc with ⟨b2, hb2, hcb2⟩
      simpa [hle] using ih (insertNifti d n) b2 hb2 hcb2

theorem buildDictAux_mem {T : Nat} {c : Nifti} (hT : T < c.acqTime) :
    ∀ ns : List Nifti, ∀ d : List (Nat × List Nifti), c ∈ ns →
      ∃ b2, (c.acqTime, b2) ∈ buildDictAux T d ns ∧ c ∈ b2 := by
  intro ns
  induction ns with
  | nil => intro d h; simp at h
  | cons n ns ih =>
    intro d hc
    rw [buildDictAux]
    rcases List.mem_cons.mp hc with h | h
    · subst h
      have hle : ¬ c.acqTime ≤ T := Nat.not_le_of_lt hT
      rcases insertNifti_self d with ⟨b2, hb2, hcb2⟩
      simpa [hle] using buildDictAux_preserves ns (insertNifti d c) b2 hb2 hcb2
    · by_cases hle : n.acqTime ≤ T
      · simpa [hle] using ih d h
      · simpa [hle] using ih (insertNifti d n) h

/-- Every strictly later candidate ends up in the bucket of its exact
acquisition time. -/
theorem buildDict_mem {ns : List Nifti} {T : Nat} {c : Nifti}
    (hc : c ∈ ns) (hT : T < c.acqTime) :
    ∃ b, (c.acqTime, b) ∈ buildDict ns T ∧ c ∈ b :=
  buildDictAux_mem hT ns [] hc

theorem insertNifti_keys {n : Nifti} :
    ∀ d : List (Nat × List Nifti),
      (insertNifti d n).map Prod.fst =
        (if n.acqTime ∈ d.map Prod.fst then d.map Prod.fst
         else d.map Prod.fst ++ [n.acqTime]) := by
  intro d
  induction d with
  | nil => simp [insertNifti]
  | cons q rest ih =>
    obtain ⟨t, b⟩ := q
    by_cases hq : t = n.acqTime
    · subst hq
      by_cases hb : n ∈ b
      · rw [insertNifti, if_pos rfl, if_pos hb]
        simp
      · rw [insertNifti, if_pos rfl, if_neg hb]
        simp
    · rw [insertNifti, if_neg hq]
      by_cases hmem : n.acqTime ∈ rest.map Prod.fst
      · simp [ih, hmem, Ne.symm hq]
      · simp [ih, hmem, Ne.symm hq]

theorem insertNifti_nodup_keys {n : Nifti} {d : List (Nat × List Nifti)}
    (h : (d.map Prod.fst).Nodup) : ((insertNifti d n).map Prod.fst).Nodup := by
  rw [insertNifti_keys]
  by_cases hmem : n.acqTime ∈ d.map Prod.fst
  · simpa [hmem] using h
  · simp only [hmem, if_neg, ite_false]
    simp [List.nodup_append, h, hmem]

theorem buildDictAux_nodup_keys {T : Nat} :
    ∀ ns : List Nifti, ∀ d : List (Nat × List Nifti),
      (d.map Prod.fst).Nodup → ((buildDictAux T d ns).map Prod.fst).Nodup := by
  intro ns
  induction ns with
  | nil => intro d hd; simpa [buildDictAux] using hd
  | cons n ns ih =>
    intro d hd
    rw [buildDictAux]
    by_cases hle : n.acqTime ≤ T
    · simpa [hle] using ih d hd
    · simpa [hle] using ih (insertNifti d n) (insertNifti_nodup_keys hd)

/-- The `out_dict` has one bucket per distinct acquisition time. -/
theorem buildDict_nodup_keys {ns : List Nifti} {T : Nat} :
    ((buildDict ns T).map Prod.fst).Nodup :=
  buildDictAux_nodup_keys ns [] (by simp)

theorem mem_sortedBuckets {d : List (Nat × List Nifti)} {b : List Nifti} :
    b ∈ sortedBuckets d ↔ ∃ t, (t, b) ∈ d := by
  unfold sortedBuckets
  rw [List.mem_map]
  constructor
  · rintro ⟨p, hp, hpb⟩
    refine ⟨p.1, ?_⟩
    have hmem := (List.perm_insertionSort (fun a b : Nat × List Nifti => a.1 ≤ b.1) d).mem_iff.mp hp
    rw [← hpb]
    simpa using hmem
  · rintro ⟨t, ht⟩
    exact ⟨(t, b),
      (List.perm_insertionSort (fun a b : Nat × List Nifti => a.1 ≤ b.1) d).mem_iff.mpr ht, rfl⟩

-- ### Walk output membership

/-- A path contributed by one bucket: built from the bucket's first member's
datatype (and session, when present) and some member's filename. -/
def pathFromBucket (p : String) (b : List Nifti) : Prop :=
  ∃ n0 ns1, b = n0 :: ns1 ∧ ∃ dt0, alookup n0.entities "datatype" = some dt0 ∧
    ∃ c ∈ b, ((alookup n0.entities "session" = none ∧ p = dt0 ++ "/" ++ c.filename) ∨
      (∃ s, alookup n0.entities "session" = some s ∧
        p = "ses-" ++ s ++ "/" ++ dt0 ++ "/" ++ c.filename))

theorem mem_bucketPaths {p : String} {n0 : Nifti} {dt0 : String} {b : List Nifti}
    (h : p ∈ bucketPaths n0 dt0 b) :
    ∃ c ∈ b, ((alookup n0.entities "session" = none ∧ p = dt0 ++ "/" ++ c.filename) ∨
      (∃ s, alookup n0.entities "session" = some s ∧
        p = "ses-" ++ s ++ "/" ++ dt0 ++ "/" ++ c.filename)) := by
  unfold bucketPaths at h
  cases hs : alookup n0.entities "session" with
  | none =>
    rw [hs] at h
    rcases List.mem_map.mp (mem_sortStr.mp h) with ⟨c, hc, hcp⟩
    exact ⟨c, hc, Or.inl ⟨rfl, hcp.symm⟩⟩
  | some s =>
    rw [hs] at h
    rcases List.mem_map.mp (mem_sortStr.mp h) with ⟨c, hc, hcp⟩
    exact ⟨c, hc, Or.inr ⟨s, rfl, hcp.symm⟩⟩

theorem walkBuckets_out_mem {fE : List (String × String)} :
    ∀ bs : List (List Nifti), ∀ acc l : List String,
      walkBuckets fE bs acc = .ok l → ∀ p ∈ l,
      p ∈ acc ∨ ∃ b ∈ bs, pathFromBucket p b := by
  intro bs
  induction bs with
  | nil =>
    intro acc l h p hp
    simp only [walkBuckets, Except.ok.injEq] at h
    exact Or.inl (h ▸ hp)
  | cons b rest ih =>
    intro acc l h p hp
    cases b with
    | nil => simp [walkBuckets] at h
    | cons n0 ns1 =>
      cases hdt : alookup n0.entities "datatype" with
      | none => simp [walkBuckets, entGet, hdt] at h
      | some dt0 =>
        rw [walkBuckets] at h
        rw [entGet_ok_of_alookup hdt] at h
        simp only [except_bind_ok] at h
        by_cases hfm : dt0 = "fmap"
        · rw [if_pos hfm] at h
          cases ham : anyMatches fE (n0 :: ns1) with
          | error e => rw [ham] at h; simp at h
          | ok m =>
            rw [ham] at h
            simp only [except_bind_ok] at h
            cases m with
            | true =>
              simp only [if_pos rfl] at h
              have : acc = l := by simpa using h
              exact Or.inl (this ▸ hp)
            | false =>
              simp only [Bool.false_eq_true, if_neg, ite_false] at h
              rcases ih acc l h p hp with h2 | ⟨b2, hb2, hpb2⟩
              · exact Or.inl h2
              · exact Or.inr ⟨b2, by simp [hb2], hpb2⟩
        · rw [if_neg hfm] at h
          have hemit : ∀ h2 : walkBuckets fE rest (acc ++ bucketPaths n0 dt0 (n0 :: ns1)) = .ok l,
              p ∈ acc ∨ ∃ b2 ∈ (n0 :: ns1) :: rest, pathFromBucket p b2 := by
            intro h2
            rcases ih _ l h2 p hp with h3 | ⟨b2, hb2, hpb2⟩
            · rcases List.mem_append.mp h3 with h4 | h4
              · exact Or.inl h4
              · refine Or.inr ⟨n0 :: ns1, by simp, ?_⟩
                rcases mem_bucketPaths h4 with ⟨c, hc, hcp⟩
                exact ⟨n0, ns1, rfl, dt0, hdt, c, hc, hcp⟩
            · exact Or.inr ⟨b2, by simp [hb2], hpb2⟩
          cases hacq : alookup fE "acquisition" with
          | none =>
            rw [hacq] at h
            dsimp only at h
            exact hemit h
          | some a =>
            rw [hacq] at h
            dsimp only at h
            by_cases haq : a = dt0
            · rw [if_pos haq] at h
              exact hemit h
            · rw [if_neg haq] at h
              rcases ih acc l h p hp with h2 | ⟨b2, hb2, hpb2⟩
              · exact Or.inl h2
              · exact Or.inr ⟨b2, by simp [hb2], hpb2⟩

theorem buildDictAux_all_skip {T : Nat} :
    ∀ ns : List Nifti, (∀ n ∈ ns, n.acqTime ≤ T) →
    ∀ d : List (Nat × List Nifti), buildDictAux T d ns = d := by
  intro ns
  induction ns with
  | nil => intro _ d; rfl
  | cons n ns ih =>
    intro hS d
    rw [buildDictAux, if_pos (hS n (by simp))]
    exact ih (fun m hm => hS m (by simp [hm])) d

/-- A diffusion scan acquired at the same time as `exFunc2`, used to
exercise mixed-datatype buckets and acquisition-mismatch skips. -/
def exDwi2 : Nifti :=
  { entities := [("subject", "01"), ("datatype", "dwi")]
    acqTime := 2
    filename := "sub-01_dwi.nii.gz" }

/-- A later field map unrelated to `exFmap1` (its `acquisition` and
`direction` entities differ), used to exercise the skipped-unrelated-fmap
case. -/
def exFmapPA : Nifti :=
  { entities := [("subject", "01"), ("datatype", "fmap"), ("acquisition", "dwi"),
                 ("direction", "PA"), ("run", "1")]
    acqTime := 2
    filename := "sub-01_acq-dwi_dir-PA_run-1_epi.nii.gz" }

/-- When every bucket of the walk is non-emitting — a field-map bucket whose
match check evaluates (stopping or skipping), or a non-field-map bucket whose
datatype mismatches the field map's `acquisition` entity — the walk returns
the accumulator untouched. -/
theorem walkBuckets_nonemitting {fE : List (String × String)} :
    ∀ bs : List (List Nifti), ∀ acc : List String,
      (∀ b ∈ bs, ∃ n0 ns1, b = n0 :: ns1 ∧ ∃ dt0,
        alookup n0.entities "datatype" = some dt0 ∧
        ((dt0 = "fmap" ∧ ∀ i ∈ b, ∀ x ∈ fE.map Prod.fst, x ≠ "run" →
            (alookup i.entities x).isSome) ∨
         (dt0 ≠ "fmap" ∧ ∃ a, alookup fE "acquisition" = some a ∧ a ≠ dt0))) →
      walkBuckets fE bs acc = .ok acc := by
  intro bs
  induction bs with
  | nil => intro acc _; rfl
  | cons b bs ih =>
    intro acc hall
    rcases hall b (by simp) with ⟨n0, ns1, rfl, dt0, hdt, hcase⟩
    rcases hcase with ⟨hfm, hdef⟩ | ⟨hne, a, hacq, hmm⟩
    · subst hfm
      have ham := anyMatches_ok fE (n0 :: ns1) hdef
      by_cases hex : ∃ i ∈ n0 :: ns1, agreesExceptRun fE i.entities
      · have hm : anyMatches fE (n0 :: ns1) = .ok true := by
          rw [ham, decide_eq_true hex]
        exact walkBuckets_stop hdt hm
      · have hm : anyMatches fE (n0 :: ns1) = .ok false := by
          rw [ham, decide_eq_false hex]
        rw [walkBuckets_skip_fmap hdt hm]
        exact ih acc (fun b2 hb2 => hall b2 (by simp [hb2]))
    · rw [walkBuckets_skip_acq hdt hne hacq hmm]
      exact ih acc (fun b2 hb2 => hall b2 (by simp [hb2]))

-- ### Claim theorems on the IntendedFor walk

/-- Claim C1: when the walk reaches an ascending-time bucket whose members
are field maps, it stops there if some member agrees with the field map's
entity set on every key except `run` (the closing field map: that bucket and
all later buckets contribute nothing), and otherwise skips the bucket and
continues; and in the spec's three-entry scenario (t1 field map, t2 func
scan, t3 field map equal to t1 except `run`) the t1 field map's IntendedFor
is exactly the t2 scan's func path. -/
theorem C1_closing_fieldmap_window (fE : List (String × String)) (n0 : Nifti)
    (ns1 : List Nifti) (rest : List (List Nifti)) (acc : List String)
    (hdt : alookup n0.entities "datatype" = some "fmap")
    (hdef : ∀ i ∈ n0 :: ns1, ∀ x ∈ fE.map Prod.fst, x ≠ "run" →
      (alookup i.entities x).isSome) :
    ((∃ i ∈ n0 :: ns1, agreesExceptRun fE i.entities) →
      walkBuckets fE ((n0 :: ns1) :: rest) acc = .ok acc) ∧
    ((∀ i ∈ n0 :: ns1, ¬ agreesExceptRun fE i.entities) →
      walkBuckets fE ((n0 :: ns1) :: rest) acc = walkBuckets fE rest acc) ∧
    intended_for_gen [exFmap1, exFunc2, exFmap3] exFmap1 =
      .ok ["func/sub-01_task-rest_bold.nii.gz"] := by
  have ham := anyMatches_ok fE (n0 :: ns1) hdef
  refine ⟨?_, ?_, rfl⟩
  · intro hex
    have hm : anyMatches fE (n0 :: ns1) = .ok true := by
      rw [ham, decide_eq_true hex]
    exact walkBuckets_stop hdt hm
  · intro hall
    have hnex : ¬ ∃ i ∈ n0 :: ns1, agreesExceptRun fE i.entities := by
      rintro ⟨i, hi, hagree⟩
      exact hall i hi hagree
    have hm : anyMatches fE (n0 :: ns1) = .ok false := by
      rw [ham, decide_eq_false hnex]
    exact walkBuckets_skip_fmap hdt hm

theorem C1_closing_fieldmap_window_witness :
    walkBuckets exFmap1.entities [[exFmap3]] ["func/sub-01_task-rest_bold.nii.gz"] =
      .ok ["func/sub-01_task-rest_bold.nii.gz"] :=
  (C1_closing_fieldmap_window exFmap1.entities exFmap3 [] []
      ["func/sub-01_task-rest_bold.nii.gz"] (by decide) (by decide)).1
    ⟨exFmap3, by simp, by decide⟩

/-- Claim C2: a candidate appears in a field map's IntendedFor only if its
acquisition time is strictly later than the field map's; every candidate
with time ≤ the field map's (the field map itself included) is discarded,
and the kept candidates are grouped into buckets keyed by exact
acquisition-time equality before the walk. -/
theorem C2_only_later_candidates (niftis : List Nifti) (f : Nifti) :
    (∀ t : Nat, ∀ b : List Nifti, (t, b) ∈ buildDict niftis f.acqTime →
      f.acqTime < t ∧ ∀ c ∈ b, c.acqTime = t ∧ c ∈ niftis) ∧
    (∀ c ∈ niftis, f.acqTime < c.acqTime →
      ∃ b, (c.acqTime, b) ∈ buildDict niftis f.acqTime ∧ c ∈ b) ∧
    ((buildDict niftis f.acqTime).map Prod.fst).Nodup ∧
    (∀ l, intended_for_gen niftis f = .ok l → ∀ p ∈ l,
      ∃ c ∈ niftis, f.acqTime < c.acqTime ∧ ∃ pre, p = pre ++ "/" ++ c.filename) := by
  refine ⟨fun t b hb => buildDict_inv (t, b) hb, fun c hc hT => buildDict_mem hc hT,
    buildDict_nodup_keys, ?_⟩
  intro l hl p hp
  unfold intended_for_gen at hl
  cases hw : walkBuckets f.entities (sortedBuckets (buildDict niftis f.acqTime)) [] with
  | error e => rw [hw] at hl; simp at hl
  | ok res =>
    rw [hw] at hl
    simp only [except_bind_ok, except_pure_def, Except.ok.injEq] at hl
    subst hl
    have hpres : p ∈ res := mem_sortStr.mp hp
    rcases walkBuckets_out_mem _ _ _ hw p hpres with h | ⟨b, hb, hpb⟩
    · simp at h
    · rcases mem_sortedBuckets.mp hb with ⟨t, ht⟩
      have hinv := buildDict_inv (t, b) ht
      rcases hpb with ⟨n0, ns1, rfl, dt0, hdt0, c, hc, hshape⟩
      have hcfacts := hinv.2 c hc
      refine ⟨c, hcfacts.2, hcfacts.1 ▸ hinv.1, ?_⟩
      rcases hshape with ⟨_, hpc⟩ | ⟨s, _, hpc⟩
      · exact ⟨dt0, hpc⟩
      · exact ⟨"ses-" ++ s ++ "/" ++ dt0, hpc⟩

theorem C2_only_later_candidates_witness :
    ∃ c ∈ [exFmap1, exFunc2, exFmap3], exFmap1.acqTime < c.acqTime ∧
      ∃ pre, "func/sub-01_task-rest_bold.nii.gz" = pre ++ "/" ++ c.filename :=
  (C2_only_later_candidates [exFmap1, exFunc2, exFmap3] exFmap1).2.2.2
    ["func/sub-01_task-rest_bold.nii.gz"] rfl
    "func/sub-01_task-rest_bold.nii.gz" (by simp)

/-- Claim C3: when the field map carries an `acquisition` entity that
differs from a non-field-map bucket's datatype label, the bucket contributes
nothing and the walk continues with the later buckets (a skip, not a
stop). -/
theorem C3_acq_mismatch_skip (fE : List (String × String)) (n0 : Nifti)
    (ns1 : List Nifti) (rest : List (List Nifti)) (acc : List String)
    (dt0 a : String)
    (hdt : alookup n0.entities "datatype" = some dt0) (hne : dt0 ≠ "fmap")
    (hacq : alookup fE "acquisition" = some a) (hmm : a ≠ dt0) :
    walkBuckets fE ((n0 :: ns1) :: rest) acc = walkBuckets fE rest acc :=
  walkBuckets_skip_acq hdt hne hacq hmm

theorem C3_acq_mismatch_skip_witness :
    walkBuckets exFmap1.entities [[exDwi2]] [] = walkBuckets exFmap1.entities [] [] :=
  C3_acq_mismatch_skip exFmap1.entities exDwi2 [] [] [] "dwi" "func"
    rfl (by decide) rfl (by decide)

/-- Claim C10: each emitted bucket's members are written with the datatype
and session prefix of the bucket's FIRST member (the other members' entities
are not consulted for the path prefix, the field-map test, or the
acquisition-mismatch test), so a mixed-datatype same-timestamp bucket is
emitted entirely under the first member's datatype/session prefix. -/
theorem C10_first_member_decisions (fE : List (String × String)) (n0 : Nifti)
    (ns1 : List Nifti) (rest : List (List Nifti)) (acc : List String) (dt0 : String)
    (hdt : alookup n0.entities "datatype" = some dt0) (hne : dt0 ≠ "fmap")
    (hacq : alookup fE "acquisition" = none ∨ alookup fE "acquisition" = some dt0) :
    walkBuckets fE ((n0 :: ns1) :: rest) acc =
      walkBuckets fE rest (acc ++ bucketPaths n0 dt0 (n0 :: ns1)) ∧
    (alookup n0.entities "session" = none →
      bucketPaths n0 dt0 (n0 :: ns1) =
        sortStr ((n0 :: ns1).map (fun x => dt0 ++ "/" ++ x.filename))) ∧
    (∀ s, alookup n0.entities "session" = some s →
      bucketPaths n0 dt0 (n0 :: ns1) =
        sortStr ((n0 :: ns1).map (fun x => "ses-" ++ s ++ "/" ++ dt0 ++ "/" ++ x.filename))) := by
  refine ⟨walkBuckets_emit hdt hne hacq, ?_, ?_⟩
  · intro hs
    unfold bucketPaths
    rw [hs]
  · intro s hs
    unfold bucketPaths
    rw [hs]

theorem C10_first_member_decisions_witness :
    walkBuckets exFmap1.entities [[exFunc2, exDwi2]] [] =
      walkBuckets exFmap1.entities [] ([] ++ bucketPaths exFunc2 "func" [exFunc2, exDwi2]) ∧
    bucketPaths exFunc2 "func" [exFunc2, exDwi2] =
      sortStr ([exFunc2, exDwi2].map (fun x => "func" ++ "/" ++ x.filename)) := by
  have h := C10_first_member_decisions exFmap1.entities exFunc2 [exDwi2] [] [] "func"
    rfl (by decide) (Or.inr rfl)
  exact ⟨h.1, h.2.1 rfl⟩

/-- Claim C4: the value assigned to IntendedFor is a lexicographically
sorted list of relative paths of the form `<datatype>/<filename>`
(prefixed with `ses-<session>/` when the emitting bucket's first member has
a session entity), where the datatype is the actual datatype entity of a
candidate; and the result is exactly `[]` whenever no qualifying later
scans exist: no strictly later candidates at all, an immediately closing
field map, or later candidates that are all skipped (field-map buckets and
acquisition-mismatched buckets) — in particular, an `acq-func` field map
whose only later entry is a dwi scan, or whose only later entry is an
unrelated field map, gets `IntendedFor = []`. -/
theorem C4_intendedfor_form (niftis : List Nifti) (f : Nifti) :
    (∀ l, intended_for_gen niftis f = .ok l → l.Sorted strLe) ∧
    (∀ l, intended_for_gen niftis f = .ok l → ∀ p ∈ l,
      ∃ c ∈ niftis, ∃ h0 ∈ niftis, ∃ dt0,
        alookup h0.entities "datatype" = some dt0 ∧
        ((alookup h0.entities "session" = none ∧ p = dt0 ++ "/" ++ c.filename) ∨
         (∃ s, alookup h0.entities "session" = some s ∧
           p = "ses-" ++ s ++ "/" ++ dt0 ++ "/" ++ c.filename))) ∧
    ((∀ c ∈ niftis, c.acqTime ≤ f.acqTime) → intended_for_gen niftis f = .ok []) ∧
    (∀ n0 ns1 rest, sortedBuckets (buildDict niftis f.acqTime) = (n0 :: ns1) :: rest →
      alookup n0.entities "datatype" = some "fmap" →
      anyMatches f.entities (n0 :: ns1) = .ok true →
      intended_for_gen niftis f = .ok []) ∧
    ((∀ b ∈ sortedBuckets (buildDict niftis f.acqTime), ∃ n0 ns1, b = n0 :: ns1 ∧
      ∃ dt0, alookup n0.entities "datatype" = some dt0 ∧
      ((dt0 = "fmap" ∧ ∀ i ∈ b, ∀ x ∈ f.entities.map Prod.fst, x ≠ "run" →
          (alookup i.entities x).isSome) ∨
       (dt0 ≠ "fmap" ∧ ∃ a, alookup f.entities "acquisition" = some a ∧ a ≠ dt0))) →
      intended_for_gen niftis f = .ok []) ∧
    intended_for_gen [exFmap1, exDwi2] exFmap1 = .ok [] ∧
    intended_for_gen [exFmap1, exFmapPA] exFmap1 = .ok [] := by
  refine ⟨?_, ?_, ?_, ?_, ?_, rfl, rfl⟩
  · intro l hl
    unfold intended_for_gen at hl
    cases hw : walkBuckets f.entities (sortedBuckets (buildDict niftis f.acqTime)) [] with
    | error e => rw [hw] at hl; simp at hl
    | ok res =>
      rw [hw] at hl
      simp only [except_bind_ok, except_pure_def, Except.ok.injEq] at hl
      subst hl
      exact sortStr_sorted res
  · intro l hl p hp
    unfold intended_for_gen at hl
    cases hw : walkBuckets f.entities (sortedBuckets (buildDict niftis f.acqTime)) [] with
    | error e => rw [hw] at hl; simp at hl
    | ok res =>
      rw [hw] at hl
      simp only [except_bind_ok, except_pure_def, Except.ok.injEq] at hl
      subst hl
      rcases walkBuckets_out_mem _ _ _ hw p (mem_sortStr.mp hp) with h | ⟨b, hb, hpb⟩
      · simp at h
      · rcases mem_sortedBuckets.mp hb with ⟨t, ht⟩
        have hinv := buildDict_inv (t, b) ht
        rcases hpb with ⟨n0, ns1, rfl, dt0, hdt0, c, hc, hshape⟩
        exact ⟨c, (hinv.2 c hc).2, n0, (hinv.2 n0 (by simp)).2, dt0, hdt0, hshape⟩
  · intro hle
    have hnil : buildDict niftis f.acqTime = [] := buildDictAux_all_skip niftis hle []
    rw [intended_for_gen, hnil]
    rfl
  · intro n0 ns1 rest hsb hdt hm
    rw [intended_for_gen, hsb]
    rw [walkBuckets_stop hdt hm]
    rfl
  · intro hall
    rw [intended_for_gen, walkBuckets_nonemitting _ [] hall]
    rfl

theorem C4_intendedfor_form_witness :
    intended_for_gen [exFmap1] exFmap1 = .ok [] ∧
    List.Sorted strLe ["func/sub-01_task-rest_bold.nii.gz"] ∧
    intended_for_gen [exFmap1, exDwi2] exFmap1 = .ok [] :=
  ⟨(C4_intendedfor_form [exFmap1] exFmap1).2.2.1 (by decide),
   (C4_intendedfor_form [exFmap1, exFunc2, exFmap3] exFmap1).1
     ["func/sub-01_task-rest_bold.nii.gz"] rfl,
   (C4_intendedfor_form [exFmap1, exDwi2] exFmap1).2.2.2.2.1 (by
     intro b hb
     have hsb : sortedBuckets (buildDict [exFmap1, exDwi2] exFmap1.acqTime) =
         [[exDwi2]] := rfl
     rw [hsb] at hb
     have hb2 : b = [exDwi2] := by simpa using hb
     subst hb2
     exact ⟨exDwi2, [], rfl, "dwi", rfl,
       Or.inr ⟨by decide, "func", rfl, by decide⟩⟩)⟩

-- ### Readout-time backfill lemmas (lines 83–94 of `utils.py`)

theorem peIdx_error {c : Char} {e : Err} (h : peIdx c = .error e) :
    ∃ k, e = .keyError k := by
  unfold peIdx at h
  split_ifs at h
  all_goals
    first
      | exact Except.noConfusion h
      | exact ⟨_, (Except.error.inj h).symm⟩

theorem readoutCore_master (data : List (String × JVal)) (n : ℕ) (prf : ℚ) :
    (∃ q, readoutCore data n prf =
      .ok (dictSet data "TotalReadoutTime" (.num q), true)) ∨
    (∃ e, e ≠ Err.missingFieldError ∧ readoutCore data n prf = .error e) ∨
    ((alookup data "EffectiveEchoSpacing" = none ∨
      alookup data "EffectiveEchoSpacing" = some JVal.null) ∧
      readoutCore data n prf = .error .missingFieldError) := by
  unfold readoutCore
  by_cases hz : prf = 0
  · exact Or.inr (Or.inl ⟨.zeroDivisionError, by simp, by rw [if_pos hz]⟩)
  · rw [if_neg hz]
    cases hees : alookup data "EffectiveEchoSpacing" with
    | none => exact Or.inr (Or.inr ⟨Or.inl rfl, rfl⟩)
    | some vv =>
      cases vv with
      | null => exact Or.inr (Or.inr ⟨Or.inr rfl, rfl⟩)
      | num q => exact Or.inl ⟨_, rfl⟩
      | str s2 => exact Or.inr (Or.inl ⟨.typeError, by simp, rfl⟩)
      | arr l2 => exact Or.inr (Or.inl ⟨.typeError, by simp, rfl⟩)
      | obj m2 => exact Or.inr (Or.inl ⟨.typeError, by simp, rfl⟩)

/-- Exhaustive behaviour of the readout-time backfill: either the guard is
false and the sidecar is untouched, or `TotalReadoutTime` is set and the
entry marked dirty, or a non-`missingFieldError` exception propagates, or the
defensive missing-`EffectiveEchoSpacing` branch fires — and the last happens
only when the stored value is JSON `null` (the guard already established the
key is present). -/
theorem readoutStep_master (sh : List ℕ) (data : List (String × JVal)) (ow : Bool) :
    (((alookup data "EffectiveEchoSpacing").isSome &&
        (ow || (alookup data "TotalReadoutTime").isNone)) = false ∧
      readoutStep sh data ow = .ok (data, false)) ∨
    (∃ q, readoutStep sh data ow =
      .ok (dictSet data "TotalReadoutTime" (.num q), true)) ∨
    (∃ e, e ≠ Err.missingFieldError ∧ readoutStep sh data ow = .error e) ∨
    (alookup data "EffectiveEchoSpacing" = some JVal.null ∧
      readoutStep sh data ow = .error .missingFieldError) := by
  by_cases hg : ((alookup data "EffectiveEchoSpacing").isSome &&
      (ow || (alookup data "TotalReadoutTime").isNone)) = true
  · have hsome : (alookup data "EffectiveEchoSpacing").isSome = true := by
      cases hE : (alookup data "EffectiveEchoSpacing").isSome
      · rw [hE] at hg
        simp at hg
      · rfl
    rw [readoutStep, if_pos hg]
    cases hped : alookup data "PhaseEncodingDirection" with
    | none =>
      exact Or.inr (Or.inr (Or.inl ⟨.keyError "PhaseEncodingDirection", by simp, by simp⟩))
    | some v =>
      cases v with
      | str s =>
        cases hchars : s.data with
        | nil =>
          exact Or.inr (Or.inr (Or.inl ⟨.indexError, by simp, by simp [hchars]⟩))
        | cons c cs =>
          cases hpi : peIdx c with
          | error e =>
            rcases peIdx_error hpi with ⟨k, rfl⟩
            exact Or.inr (Or.inr (Or.inl ⟨.keyError k, by simp, by simp [hchars, hpi]⟩))
          | ok i =>
            cases hn : sh[i]? with
            | none =>
              exact Or.inr (Or.inr (Or.inl ⟨.indexError, by simp,
                by simp [hchars, hpi, hn]⟩))
            | some n =>
              cases hprf : alookup data "ParallelReductionFactorInPlane" with
              | none =>
                rcases readoutCore_master data n 1 with ⟨q, he⟩ | ⟨e, hne, he⟩ |
                    ⟨hnull, he⟩
                · exact Or.inr (Or.inl ⟨q, by simp [hped, hchars, hpi, hn, hprf, he]⟩)
                · exact Or.inr (Or.inr (Or.inl ⟨e, hne,
                    by simp [hped, hchars, hpi, hn, hprf, he]⟩))
                · rcases hnull with hnone | hnull
                  · rw [hnone] at hsome
                    simp at hsome
                  · exact Or.inr (Or.inr (Or.inr ⟨hnull,
                      by simp [hped, hchars, hpi, hn, hprf, he]⟩))
              | some v2 =>
                cases v2 with
                | num q0 =>
                  rcases readoutCore_master data n q0 with ⟨q, he⟩ | ⟨e, hne, he⟩ |
                      ⟨hnull, he⟩
                  · exact Or.inr (Or.inl ⟨q, by simp [hped, hchars, hpi, hn, hprf, he]⟩)
                  · exact Or.inr (Or.inr (Or.inl ⟨e, hne,
                      by simp [hped, hchars, hpi, hn, hprf, he]⟩))
                  · rcases hnull with hnone | hnull
                    · rw [hnone] at hsome
                      simp at hsome
                    · exact Or.inr (Or.inr (Or.inr ⟨hnull,
                        by simp [hped, hchars, hpi, hn, hprf, he]⟩))
                | null => exact Or.inr (Or.inr (Or.inl ⟨.typeError, by simp,
                    by simp [hped, hchars, hpi, hn, hprf]⟩))
                | str s2 => exact Or.inr (Or.inr (Or.inl ⟨.typeError, by simp,
                    by simp [hped, hchars, hpi, hn, hprf]⟩))
                | arr l2 => exact Or.inr (Or.inr (Or.inl ⟨.typeError, by simp,
                    by simp [hped, hchars, hpi, hn, hprf]⟩))
                | obj m2 => exact Or.inr (Or.inr (Or.inl ⟨.typeError, by simp,
                    by simp [hped, hchars, hpi, hn, hprf]⟩))
      | null =>
        exact Or.inr (Or.inr (Or.inl ⟨.typeError, by simp, by simp [hped]⟩))
      | num q =>
        exact Or.inr (Or.inr (Or.inl ⟨.typeError, by simp, by simp [hped]⟩))
      | arr l2 =>
        exact Or.inr (Or.inr (Or.inl ⟨.typeError, by simp, by simp [hped]⟩))
      | obj m2 =>
        exact Or.inr (Or.inr (Or.inl ⟨.typeError, by simp, by simp [hped]⟩))
  · have hgf : ((alookup data "EffectiveEchoSpacing").isSome &&
        (ow || (alookup data "TotalReadoutTime").isNone)) = false :=
      Bool.eq_false_iff.mpr hg
    exact Or.inl ⟨hgf, by rw [readoutStep, if_neg hg]⟩

/-- The spec's readout-time example sidecar: `EffectiveEchoSpacing=0.0005`
(= 1/2000), `PhaseEncodingDirection="j-"`, no
`ParallelReductionFactorInPlane`, no `TotalReadoutTime`. -/
def exReadoutData : List (String × JVal) :=
  [("EffectiveEchoSpacing", .num (1/2000)), ("PhaseEncodingDirection", .str "j-")]

/-- A sidecar whose `EffectiveEchoSpacing` key holds JSON `null`. -/
def exNullData : List (String × JVal) :=
  [("EffectiveEchoSpacing", JVal.null), ("PhaseEncodingDirection", .str "j-")]

/-- Claim C5: whenever the backfill guard holds (`EffectiveEchoSpacing`
present and `overwrite` or no `TotalReadoutTime`), the pass sets
`TotalReadoutTime = EffectiveEchoSpacing × (effectiveLines − 1)` with
`effectiveLines = ⌊extent along the phase axis / ParallelReductionFactorInPlane⌋`
(factor defaulting to 1); in particular `EffectiveEchoSpacing=0.0005`,
`PhaseEncodingDirection="j-"`, extent 64 along axis j and no reduction
factor yield `TotalReadoutTime = 0.0315 = 63/2000`. -/
theorem C5_total_readout_time (shape : List ℕ) (data : List (String × JVal)) (ow : Bool)
    (ees prf : ℚ) (ped : String) (c : Char) (cs : List Char) (i n : ℕ)
    (hees : alookup data "EffectiveEchoSpacing" = some (.num ees))
    (hguard : ow = true ∨ alookup data "TotalReadoutTime" = none)
    (hped : alookup data "PhaseEncodingDirection" = some (.str ped))
    (hc : ped.data = c :: cs)
    (hi : peIdx c = .ok i)
    (hn : shape[i]? = some n)
    (hprf : (alookup data "ParallelReductionFactorInPlane" = none ∧ prf = 1) ∨
      alookup data "ParallelReductionFactorInPlane" = some (.num prf))
    (hprf0 : prf ≠ 0) :
    readoutStep shape data ow =
      .ok (dictSet data "TotalReadoutTime"
            (.num (ees * ((⌊(n : ℚ) / prf⌋ : ℚ) - 1))), true) ∧
    readoutStep [96, 64, 33] exReadoutData false =
      .ok (dictSet exReadoutData "TotalReadoutTime" (.num (63/2000)), true) := by
  constructor
  · have hg : ((alookup data "EffectiveEchoSpacing").isSome &&
        (ow || (alookup data "TotalReadoutTime").isNone)) = true := by
      rcases hguard with h | h
      · simp [hees, h]
      · simp [hees, h]
    have hcore : readoutCore data n prf =
        .ok (dictSet data "TotalReadoutTime"
              (.num (ees * ((⌊(n : ℚ) / prf⌋ : ℚ) - 1))), true) := by
      rw [readoutCore, if_neg hprf0, hees]
    rw [readoutStep, if_pos hg]
    rcases hprf with ⟨hpn, hp1⟩ | hps
    · subst hp1
      simp [hped, hc, hi, hn, hpn, hcore]
    · simp [hped, hc, hi, hn, hps, hcore]
  · have h1 : readoutStep [96, 64, 33] exReadoutData false =
        .ok (dictSet exReadoutData "TotalReadoutTime"
              (.num ((1/2000 : ℚ) * ((⌊((64 : ℕ) : ℚ) / (1 : ℚ)⌋ : ℚ) - 1))), true) := rfl
    have harith : (1/2000 : ℚ) * ((⌊((64 : ℕ) : ℚ) / (1 : ℚ)⌋ : ℚ) - 1) = 63/2000 := by
      norm_num
    rw [h1, harith]

theorem C5_total_readout_time_witness :
    readoutStep [96, 64, 33] exReadoutData false =
      .ok (dictSet exReadoutData "TotalReadoutTime" (.num (63/2000)), true) :=
  (C5_total_readout_time [96, 64, 33] exReadoutData false (1/2000) 1 "j-" 'j' ['-'] 1 64
    rfl (Or.inr rfl) rfl rfl rfl rfl (Or.inl ⟨rfl, rfl⟩) (by norm_num)).2

/-- Claim C6 is refuted at this input: a sidecar whose
`EffectiveEchoSpacing` key holds JSON `null` satisfies the enabling
condition (`'EffectiveEchoSpacing' in data.keys()` is True), yet
`data.get('EffectiveEchoSpacing', None)` returns `None` and the defensive
missing-`EffectiveEchoSpacing` branch raises. -/
theorem C6_null_value_counterexample :
    (alookup exNullData "EffectiveEchoSpacing").isSome = true ∧
    readoutStep [96, 64, 33] exNullData false = .error .missingFieldError :=
  ⟨rfl, rfl⟩

/-- Claim C6 (amended): under the enabling precondition, the defensive
missing-`EffectiveEchoSpacing` branch is unreachable provided the stored
value is not JSON `null`; with a null value the branch fires. -/
theorem C6_missing_field_branch_unreachable (shape : List ℕ)
    (data : List (String × JVal)) (ow : Bool)
    (hnn : ∀ v, alookup data "EffectiveEchoSpacing" = some v → v ≠ JVal.null) :
    readoutStep shape data ow ≠ .error .missingFieldError := by
  rcases readoutStep_master shape data ow with ⟨_, he⟩ | ⟨q, he⟩ | ⟨e, hne, he⟩ |
      ⟨hnull, he⟩
  · rw [he]
    exact fun h => Except.noConfusion h
  · rw [he]
    exact fun h => Except.noConfusion h
  · rw [he]
    intro h
    exact hne (Except.error.inj h)
  · exact absurd rfl (hnn _ hnull)

theorem C6_missing_field_branch_unreachable_witness :
    readoutStep [96, 64, 33] exReadoutData false ≠ .error .missingFieldError :=
  C6_missing_field_branch_unreachable [96, 64, 33] exReadoutData false (by
    intro v hv hnull
    subst hnull
    have h0 : alookup exReadoutData "EffectiveEchoSpacing" =
        some (.num (1/2000)) := rfl
    rw [h0] at hv
    exact JVal.noConfusion (Option.some.inj hv))

-- ### Completion idempotence (claim C7)

theorem readoutStep_noop {sh : List ℕ} {data : List (String × JVal)}
    (himp : (alookup data "EffectiveEchoSpacing").isSome = true →
      (alookup data "TotalReadoutTime").isSome = true) :
    readoutStep sh data false = .ok (data, false) := by
  have hg : ((alookup data "EffectiveEchoSpacing").isSome &&
      (false || (alookup data "TotalReadoutTime").isNone)) = false := by
    cases hE : (alookup data "EffectiveEchoSpacing").isSome
    · simp
    · rcases Option.isSome_iff_exists.mp (himp hE) with ⟨v, hv⟩
      simp [hv]
  have hcond : ¬ (((alookup data "EffectiveEchoSpacing").isSome &&
      (false || (alookup data "TotalReadoutTime").isNone)) = true) := by
    rw [hg]
    exact Bool.false_ne_true
  rw [readoutStep, if_neg hcond]

theorem taskStep_preserves {ents : List (String × String)}
    {data : List (String × JVal)} {dump ow : Bool} {k : String}
    (hk : k ≠ "TaskName") :
    alookup (taskStep ents data dump ow).1 k = alookup data k := by
  unfold taskStep
  cases ht : alookup ents "task" with
  | none => rfl
  | some t =>
    dsimp only
    by_cases hcond : (ow || (alookup data "TaskName").isNone) = true
    · rw [if_pos hcond]
      exact alookup_dictSet_ne data "TaskName" k _ hk
    · rw [if_neg hcond]

theorem taskStep_sets {ents : List (String × String)}
    {data : List (String × JVal)} {dump : Bool} :
    ∀ t, alookup ents "task" = some t →
      (alookup (taskStep ents data dump false).1 "TaskName").isSome = true := by
  intro t ht
  unfold taskStep
  rw [ht]
  cases hN : alookup data "TaskName" with
  | none => simp [hN, alookup_dictSet_self]
  | some v => simp [hN]

theorem taskStep_noop {ents : List (String × String)}
    {data : List (String × JVal)} {dump : Bool}
    (himp : ∀ t, alookup ents "task" = some t →
      (alookup data "TaskName").isSome = true) :
    taskStep ents data dump false = (data, dump) := by
  unfold taskStep
  cases ht : alookup ents "task" with
  | none => rfl
  | some t =>
    rcases Option.isSome_iff_exists.mp (himp t ht) with ⟨v, hv⟩
    simp [hv]

/-- After a successful `overwrite=false` completion of one entry, the
resulting metadata is saturated: `TotalReadoutTime` is present whenever
`EffectiveEchoSpacing` is, `TaskName` is present whenever the entry has a
`task` entity, and `IntendedFor` is present on field maps. -/
theorem completeStep_props {ns : List Nifti} {e : Entry}
    {r : List (String × JVal) × Bool}
    (h : completeStep ns e false = .ok r) :
    ∃ dt, alookup e.nifti.entities "datatype" = some dt ∧
      ((alookup r.1 "EffectiveEchoSpacing").isSome = true →
        (alookup r.1 "TotalReadoutTime").isSome = true) ∧
      (∀ t, alookup e.nifti.entities "task" = some t →
        (alookup r.1 "TaskName").isSome = true) ∧
      (dt = "fmap" → (alookup r.1 "IntendedFor").isSome = true) := by
  rw [completeStep] at h
  cases hr : readoutStep e.shape e.metadata false with
  | error err => rw [hr] at h; simp at h
  | ok dr =>
    rw [hr] at h
    simp only [except_bind_ok] at h
    have hF1 : (alookup dr.1 "EffectiveEchoSpacing").isSome = true →
        (alookup dr.1 "TotalReadoutTime").isSome = true := by
      rcases readoutStep_master e.shape e.metadata false with ⟨hgf, he⟩ | ⟨q, he⟩ |
          ⟨e0, _, he⟩ | ⟨_, he⟩
      · rw [hr] at he
        have hdr : dr = (e.metadata, false) := Except.ok.inj he
        subst hdr
        intro hE
        cases hT : alookup e.metadata "TotalReadoutTime" with
        | none =>
          rw [hE, hT] at hgf
          simp at hgf
        | some v => simp
      · rw [hr] at he
        have hdr : dr = (dictSet e.metadata "TotalReadoutTime" (.num q), true) :=
          Except.ok.inj he
        subst hdr
        intro _
        simp [alookup_dictSet_self]
      · rw [hr] at he
        exact Except.noConfusion he
      · rw [hr] at he
        exact Except.noConfusion he
    have hF1s : (alookup (taskStep e.nifti.entities dr.1 dr.2 false).1
          "EffectiveEchoSpacing").isSome = true →
        (alookup (taskStep e.nifti.entities dr.1 dr.2 false).1
          "TotalReadoutTime").isSome = true := by
      rw [taskStep_preserves (by simp), taskStep_preserves (by simp)]
      exact hF1
    have hF2s : ∀ t, alookup e.nifti.entities "task" = some t →
        (alookup (taskStep e.nifti.entities dr.1 dr.2 false).1 "TaskName").isSome
          = true :=
      taskStep_sets
    cases hdtL : alookup e.nifti.entities "datatype" with
    | none => rw [entGet, hdtL] at h; simp at h
    | some dt =>
      rw [entGet, hdtL] at h
      simp only [except_bind_ok] at h
      refine ⟨dt, rfl, ?_⟩
      by_cases hQ : (dt = "fmap" &&
          (false || (alookup (taskStep e.nifti.entities dr.1 dr.2 false).1
            "IntendedFor").isNone)) = true
      · rw [if_pos hQ] at h
        cases hig : intended_for_gen ns e.nifti with
        | error err => rw [hig] at h; simp at h
        | ok ps =>
          rw [hig] at h
          simp only [except_bind_ok] at h
          have hr1 : r = (dictSet (taskStep e.nifti.entities dr.1 dr.2 false).1
              "IntendedFor" (.arr (ps.map JVal.str)), true) := Except.ok.inj h.symm
          subst hr1
          refine ⟨?_, ?_, ?_⟩
          · rw [alookup_dictSet_ne _ _ _ _ (by simp),
              alookup_dictSet_ne _ _ _ _ (by simp)]
            exact hF1s
          · intro t ht
            rw [alookup_dictSet_ne _ _ _ _ (by simp)]
            exact hF2s t ht
          · intro _
            simp [alookup_dictSet_self]
      · rw [if_neg hQ] at h
        have hr1 : r = taskStep e.nifti.entities dr.1 dr.2 false :=
          Except.ok.inj h.symm
        subst hr1
        refine ⟨hF1s, hF2s, ?_⟩
        intro hdt
        subst hdt
        cases hI : (alookup (taskStep e.nifti.entities dr.1 dr.2 false).1
            "IntendedFor") with
        | none => rw [hI] at hQ; simp at hQ
        | some v => simp

/-- A saturated entry is left untouched by an `overwrite=false` completion:
no field changes and the dirty flag stays 0 (its sidecar is not
rewritten). -/
theorem completeStep_noop {ns : List Nifti} {e : Entry} {dt : String}
    (hdt : alookup e.nifti.entities "datatype" = some dt)
    (h1 : (alookup e.metadata "EffectiveEchoSpacing").isSome = true →
      (alookup e.metadata "TotalReadoutTime").isSome = true)
    (h2 : ∀ t, alookup e.nifti.entities "task" = some t →
      (alookup e.metadata "TaskName").isSome = true)
    (h3 : dt = "fmap" → (alookup e.metadata "IntendedFor").isSome = true) :
    completeStep ns e false = .ok (e.metadata, false) := by
  rw [completeStep, readoutStep_noop h1]
  simp only [except_bind_ok]
  rw [taskStep_noop h2]
  rw [entGet, hdt]
  simp only [except_bind_ok]
  have hQ : (dt = "fmap" &&
      (false || (alookup e.metadata "IntendedFor").isNone)) = false := by
    by_cases hfm : dt = "fmap"
    · rcases Option.isSome_iff_exists.mp (h3 hfm) with ⟨v, hv⟩
      simp [hfm, hv]
    · simp [hfm]
  have hcond2 : ¬ ((dt = "fmap" &&
      (false || (alookup e.metadata "IntendedFor").isNone)) = true) := by
    rw [hQ]
    exact Bool.false_ne_true
  rw [if_neg hcond2]

theorem completePassAux_idem :
    ∀ es : List Entry, ∀ ns : List Nifti, ∀ rs : List (Entry × Bool),
      completePassAux ns false es = .ok rs →
      ∀ ns2 : List Nifti,
        completePassAux ns2 false (rs.map Prod.fst) =
          .ok ((rs.map Prod.fst).map (fun e => (e, false))) := by
  intro es
  induction es with
  | nil =>
    intro ns rs h ns2
    have hrs : rs = [] := (Except.ok.inj h).symm
    subst hrs
    rfl
  | cons e es ih =>
    intro ns rs h ns2
    rw [completePassAux] at h
    cases hstep : completeStep ns e false with
    | error err => rw [hstep] at h; simp at h
    | ok r =>
      rw [hstep] at h
      simp only [except_bind_ok] at h
      cases hrest : completePassAux ns false es with
      | error err => rw [hrest] at h; simp at h
      | ok rest =>
        rw [hrest] at h
        simp only [except_bind_ok] at h
        have hrs : rs = ({ e with metadata := r.1 }, r.2) :: rest :=
          (Except.ok.inj h).symm
        subst hrs
        obtain ⟨dt, hdt, h1, h2, h3⟩ := completeStep_props hstep
        have hsecond : completeStep ns2 { e with metadata := r.1 } false =
            .ok (r.1, false) :=
          completeStep_noop (e := { e with metadata := r.1 }) hdt h1 h2 h3
        have htail := ih ns rest hrest ns2
        simp only [List.map_cons]
        rw [completePassAux, hsecond]
        simp only [except_bind_ok]
        rw [htail]
        rfl

/-- Claim C7: running the completion pass with `overwrite=false` a second
time on the state produced by a successful `overwrite=false` run modifies no
entry's metadata and marks no entry dirty — no sidecar file is rewritten. -/
theorem C7_completion_idempotent (es : List Entry) (rs : List (Entry × Bool))
    (h : completePass es false = .ok rs) :
    completePass (rs.map Prod.fst) false =
      .ok ((rs.map Prod.fst).map (fun e => (e, false))) := by
  rw [completePass] at h
  rw [completePass]
  exact completePassAux_idem es _ rs h _

/-- The field map of the spec's scenario as a full dataset entry with a bare
sidecar. -/
def exEntry : Entry :=
  { nifti := exFmap1
    metadata := [("RepetitionTime", .num 2)]
    shape := [64, 64, 33] }

/-- `exEntry` after one `overwrite=false` completion: `IntendedFor` has been
assigned (the empty list — no later scans). -/
def exEntryDone : Entry :=
  { nifti := exFmap1
    metadata := [("RepetitionTime", .num 2), ("IntendedFor", .arr [])]
    shape := [64, 64, 33] }

theorem C7_completion_idempotent_witness :
    completePass [exEntryDone] false = .ok [(exEntryDone, false)] :=
  C7_completion_idempotent [exEntry] [(exEntryDone, true)] rfl

-- ### Pruning-pass lemmas (claim C8)

theorem mem_dictSet {β : Type} {k : String} {v : β} {kv : String × β} :
    ∀ d : List (String × β), kv ∈ dictSet d k v → kv = (k, v) ∨ kv ∈ d := by
  intro d
  induction d with
  | nil =>
    intro h
    simp only [dictSet, List.mem_singleton] at h
    exact Or.inl h
  | cons p rest ih =>
    intro h
    by_cases hp : p.1 = k
    · rw [dictSet, if_pos hp] at h
      rcases List.mem_cons.mp h with h | h
      · exact Or.inl h
      · exact Or.inr (by simp [h])
    · rw [dictSet, if_neg hp] at h
      rcases List.mem_cons.mp h with h | h
      · exact Or.inr (by simp [h])
      · rcases ih h with h | h
        · exact Or.inl h
        · exact Or.inr (by simp [h])

theorem liftFold_keys {m : List (String × JVal)} {gv : JVal} :
    ∀ ks : List String, ∀ acc y : List (String × JVal),
      liftFold m gv acc ks = .ok y →
      (∀ kv ∈ acc, kv.1 ∈ KEEP_KEYS) → (∀ k ∈ ks, k ∈ KEEP_KEYS) →
      ∀ kv ∈ y, kv.1 ∈ KEEP_KEYS := by
  intro ks
  induction ks with
  | nil =>
    intro acc y h hacc _
    have : acc = y := Except.ok.inj h
    exact this ▸ hacc
  | cons k ks ih =>
    intro acc y h hacc hks
    rw [liftFold] at h
    cases hm : jMem gv k with
    | error err => rw [hm] at h; simp at h
    | ok inG =>
      rw [hm] at h
      simp only [except_bind_ok] at h
      by_cases hcond : ((alookup m k).isNone && inG) = true
      · rw [if_pos hcond] at h
        cases hj : jIndex gv k with
        | error err => rw [hj] at h; simp at h
        | ok v =>
          rw [hj] at h
          simp only [except_bind_ok] at h
          refine ih (dictSet acc k v) y h ?_ (fun k2 hk2 => hks k2 (by simp [hk2]))
          intro kv hkv
          rcases mem_dictSet acc hkv with hkv | hkv
          · rw [hkv]
            exact hks k (by simp)
          · exact hacc kv hkv
      · rw [if_neg hcond] at h
        exact ih acc y h hacc (fun k2 hk2 => hks k2 (by simp [hk2]))

theorem pruneMeta_keys {m y : List (String × JVal)} (h : pruneMeta m = .ok y) :
    ∀ kv ∈ y, kv.1 ∈ KEEP_KEYS := by
  rw [pruneMeta] at h
  have hm2 : ∀ kv ∈ KEEP_KEYS.filterMap
      (fun k => (alookup m k).map (fun v => (k, v))), kv.1 ∈ KEEP_KEYS := by
    intro kv hkv
    rcases List.mem_filterMap.mp hkv with ⟨k, hk, hf⟩
    cases hak : alookup m k with
    | none => rw [hak] at hf; exact Option.noConfusion hf
    | some v =>
      rw [hak] at hf
      have hkv : (k, v) = kv := Option.some.inj hf
      rw [← hkv]
      exact hk
  cases hG : alookup m "global" with
  | none =>
    rw [hG] at h
    simp only [except_bind_ok] at h
    exact liftFold_keys KEEP_KEYS _ y h hm2 (fun _ hk => hk)
  | some g =>
    rw [hG] at h
    simp only [except_bind_ok] at h
    cases hc : jMem g "const" with
    | error err => rw [hc] at h; simp at h
    | ok hcb =>
      rw [hc] at h
      simp only [except_bind_ok] at h
      cases hcb with
      | true =>
        rw [if_pos rfl] at h
        cases hj : jIndex g "const" with
        | error err => rw [hj] at h; simp at h
        | ok gv =>
          rw [hj] at h
          simp only [except_bind_ok] at h
          exact liftFold_keys KEEP_KEYS _ y h hm2 (fun _ hk => hk)
      | false =>
        rw [if_neg Bool.false_ne_true] at h
        exact liftFold_keys KEEP_KEYS _ y h hm2 (fun _ hk => hk)

theorem liftFold_objnil {m : List (String × JVal)} :
    ∀ ks : List String, ∀ acc : List (String × JVal),
      liftFold m (JVal.obj []) acc ks = .ok acc := by
  intro ks
  induction ks with
  | nil => intro acc; rfl
  | cons k ks ih =>
    intro acc
    rw [liftFold]
    have hm : jMem (JVal.obj []) k = .ok false := rfl
    rw [hm]
    simp only [except_bind_ok, Bool.and_false, Bool.false_eq_true, if_neg, ite_false]
    exact ih acc

theorem alookup_cons {β : Type} (k' k : String) (v : β) (rest : List (String × β)) :
    alookup ((k', v) :: rest) k = if k' = k then some v else alookup rest k := rfl

theorem alookup_keysFilter (y : List (String × JVal)) (k0 : String) :
    ∀ ks : List String,
      alookup (ks.filterMap (fun k => (alookup y k).map (fun v => (k, v)))) k0 =
        if k0 ∈ ks then alookup y k0 else none := by
  intro ks
  induction ks with
  | nil => simp [alookup]
  | cons k ks ih =>
    cases hak : alookup y k with
    | none =>
      have hred : (k :: ks).filterMap (fun k => (alookup y k).map (fun v => (k, v))) =
          ks.filterMap (fun k => (alookup y k).map (fun v => (k, v))) := by
        rw [List.filterMap_cons, hak]
        rfl
      rw [hred, ih]
      by_cases hk0 : k0 = k
      · subst hk0
        by_cases hmem : k0 ∈ ks
        · simp [hmem, hak]
        · simp [hmem, hak]
      · by_cases hmem : k0 ∈ ks
        · simp [hmem, hk0]
        · simp [hmem, hk0]
    | some v =>
      have hred : (k :: ks).filterMap (fun k => (alookup y k).map (fun v => (k, v))) =
          (k, v) :: ks.filterMap (fun k => (alookup y k).map (fun v => (k, v))) := by
        rw [List.filterMap_cons, hak]
        rfl
      rw [hred, alookup_cons]
      by_cases hk0 : k = k0
      · subst hk0
        rw [if_pos rfl]
        simp [hak]
      · rw [if_neg hk0, ih]
        have hk0' : ¬ k0 = k := fun hh => hk0 hh.symm
        by_cases hmem : k0 ∈ ks
        · simp [hmem, hk0']
        · simp [hmem, hk0']

theorem global_not_keep : "global" ∉ KEEP_KEYS := by decide

theorem alookup_none_of_keys {y : List (String × JVal)} {k : String}
    (hkeys : ∀ kv ∈ y, kv.1 ∈ KEEP_KEYS) (hk : k ∉ KEEP_KEYS) :
    alookup y k = none := by
  cases hak : alookup y k with
  | none => rfl
  | some v => exact absurd (hkeys (k, v) (mem_of_alookup_eq_some hak)) hk

/-- Claim C8: pruning is idempotent (re-pruning a pruned sidecar yields the
same mapping, Python `==` on dicts being key-value equality) and every key of
the pruned output belongs to the allow-list. -/
theorem C8_prune_idempotent_allowlist (m y : List (String × JVal))
    (h : pruneMeta m = .ok y) :
    (∀ kv ∈ y, kv.1 ∈ KEEP_KEYS) ∧
    ∃ y2, pruneMeta y = .ok y2 ∧ ∀ k, alookup y2 k = alookup y k := by
  have hkeys := pruneMeta_keys h
  refine ⟨hkeys, ?_⟩
  have hG : alookup y "global" = none := alookup_none_of_keys hkeys global_not_keep
  refine ⟨KEEP_KEYS.filterMap (fun k => (alookup y k).map (fun v => (k, v))), ?_, ?_⟩
  · rw [pruneMeta, hG]
    simp only [except_bind_ok]
    exact liftFold_objnil KEEP_KEYS _
  · intro k
    rw [alookup_keysFilter]
    by_cases hk : k ∈ KEEP_KEYS
    · rw [if_pos hk]
    · rw [if_neg hk]
      exact (alookup_none_of_keys hkeys hk).symm

/-- A raw converter sidecar: one allow-listed key, one junk key, and a
`global.const` block carrying a dataset-wide constant. -/
def exPruneData : List (String × JVal) :=
  [("EchoTime", .num 2), ("junk", .str "z"),
   ("global", .obj [("const", .obj [("FlipAngle", .num 90)])])]

/-- `exPruneData` after pruning: the junk and `global` keys are gone and the
global constant has been lifted. -/
def exPruned : List (String × JVal) :=
  [("EchoTime", .num 2), ("FlipAngle", .num 90)]

set_option maxRecDepth 100000 in
theorem C8_prune_idempotent_allowlist_witness :
    (∀ kv ∈ exPruned, kv.1 ∈ KEEP_KEYS) ∧
    ∃ y2, pruneMeta exPruned = .ok y2 ∧ ∀ k, alookup y2 k = alookup exPruned k :=
  C8_prune_idempotent_allowlist exPruneData exPruned rfl

-- ### Index NotFoundError (claim C9)

/-- Claim C9: a subject/session selection with zero imaging entries makes
the index fail with `NotFoundError`, and both the completion and pruning
passes treat that as "nothing to do": they succeed and write no sidecar. -/
theorem C9_zero_entries_noop (ds : List Entry) (sub : String) (ses : Option String)
    (ow : Bool)
    (h1 : selectEntries ds sub ses = []) (h2 : selectAll ds sub ses = []) :
    indexGet ds sub ses selectEntries = .error .notFoundError ∧
    indexGet ds sub ses selectAll = .error .notFoundError ∧
    completeForSubject ds sub ses ow = .ok [] ∧
    pruneForSubject ds sub ses = .ok [] := by
  have hi1 : indexGet ds sub ses selectEntries = .error .notFoundError := by
    rw [indexGet, h1]
  have hi2 : indexGet ds sub ses selectAll = .error .notFoundError := by
    rw [indexGet, h2]
  refine ⟨hi1, hi2, ?_, ?_⟩
  · rw [completeForSubject, hi1]
  · rw [pruneForSubject, hi2]

theorem C9_zero_entries_noop_witness :
    indexGet [exEntry] "02" none selectEntries = .error .notFoundError ∧
    indexGet [exEntry] "02" none selectAll = .error .notFoundError ∧
    completeForSubject [exEntry] "02" none false = .ok [] ∧
    pruneForSubject [exEntry] "02" none = .ok [] :=
  C9_zero_entries_noop [exEntry] "02" none false rfl rfl

end CisBidsify
